import Mathlib

/-!
Verification of the module-specifier resolution engine of the
`open-import-file` editor extension.

The TypeScript source is embedded shallowly:

* strings are modelled as `List Char` (`Str` below), so that the string
  operations used by the source (`startsWith`, `endsWith`, `slice`,
  `split`, concatenation) become ordinary list operations;
* the Node.js `path` module functions used by the source
  (`dirname`, `basename`, `join`, `resolve`, `normalize`, `isAbsolute`)
  are modelled for POSIX paths;
* the filesystem is a parameter: an existence test `Str → Bool` and a
  directory listing `Str → Option (List (Str × Bool))`;
* `Promise.race` based probing is modelled by passing the settle order of
  the concurrently started existence checks as an explicit list of indices;
* fallible delegates are modelled with `Except`.
-/

/-- Strings of the embedded program: JavaScript strings as lists of
characters. -/
abbrev Str := List Char

/-- Turn a Lean string literal into an embedded string. -/
def str (s : String) : Str := s.data

/-- JavaScript `a.startsWith(p)`. -/
def strStartsWith (p s : Str) : Bool := p.isPrefixOf s

/-- JavaScript `a.endsWith(p)`. -/
def strEndsWith (p s : Str) : Bool := p.reverse.isPrefixOf s.reverse

/-- JavaScript `String.prototype.split(sep)` for a one-character
separator: split at every occurrence, keeping empty fields. -/
def splitOnChar (sep : Char) (s : Str) : List Str := s.splitOn sep

/-! ## The spec normalizer (`normalizeImportSpec`, `src/utils`)

```ts
export function normalizeImportSpec(spec: string): string {
  if ((spec.startsWith('"') && spec.endsWith('"')) ||
      (spec.startsWith("'") && spec.endsWith("'"))) {
    return spec.slice(1, -1);
  }
  return spec;
}
```
`spec.slice(1, -1)` drops the first and the last character. -/

/-- JavaScript `s.slice(1, -1)`: drop the first and the last character
(empty result on strings of length at most one). -/
def sliceOneOne (s : Str) : Str := (s.drop 1).dropLast

/-- The spec normalizer, translated from `normalizeImportSpec`. -/
def normalizeImportSpec (spec : Str) : Str :=
  if (strStartsWith (str "\"") spec && strEndsWith (str "\"") spec) ||
     (strStartsWith (str "'") spec && strEndsWith (str "'") spec) then
    sliceOneOne spec
  else
    spec

/-- The normalizer as the specification document words it: strip one
layer only when the input is wrapped in a matching *pair* of quote
characters (so the input has length at least two), otherwise return the
input unchanged. Written from the spec for comparison with
`normalizeImportSpec`. -/
def normalizeSpecClaimed (spec : Str) : Str :=
  if (decide (2 ≤ spec.length)) &&
     ((strStartsWith (str "\"") spec && strEndsWith (str "\"") spec) ||
      (strStartsWith (str "'") spec && strEndsWith (str "'") spec)) then
    sliceOneOne spec
  else
    spec

/-! ## POSIX path model (Node.js `path` module, as used by the source)

The source runs the `path` module in POSIX mode.  A path is normalized by
splitting it at `/`, dropping empty and `.` segments, resolving `..`
segments against the preceding segment (`..` at the front is kept for
relative paths and dropped for absolute ones), and joining the remaining
segments back with `/`.  Trailing separators are collapsed. -/

/-- `true` iff the path starts with a `/` (`path.isAbsolute`, POSIX). -/
def pathIsAbsolute (p : Str) : Bool :=
  match p with
  | [] => false
  | c :: _ => c == '/'

/-- One step of segment normalization: push a normal segment, drop empty
and `.` segments, and let `..` pop the preceding segment (kept at the
front of relative paths, dropped at the root of absolute ones).  `acc`
holds the already-processed segments in reverse. -/
def normStep (isAbsolutePath : Bool) (acc : List Str) (s : Str) : List Str :=
  if s.isEmpty || s = str "." then acc
  else if s = str ".." then
    match acc with
    | [] => if isAbsolutePath then [] else [s]
    | t :: acc' => if t = str ".." then s :: acc else acc'
  else s :: acc

/-- Normalize a list of path segments. -/
def normSegs (isAbsolutePath : Bool) (l : List Str) : List Str :=
  (l.foldl (normStep isAbsolutePath) []).reverse

/-- Rebuild a path from normalized segments. -/
def renderPath (isAbsolutePath : Bool) (segs : List Str) : Str :=
  let body := List.intercalate (str "/") segs
  if isAbsolutePath then
    if body.isEmpty then str "/" else '/' :: body
  else
    if body.isEmpty then str "." else body

/-- `path.normalize` (POSIX): resolve `.` and `..` segments and collapse
separators. -/
def pathNormalize (p : Str) : Str :=
  if p.isEmpty then str "."
  else
    renderPath (pathIsAbsolute p) (normSegs (pathIsAbsolute p) (splitOnChar '/' p))

/-- `path.join(a, b)` (POSIX): concatenate the non-empty parts with a
separator and normalize the result. -/
def joinPath (a b : Str) : Str :=
  if a.isEmpty && b.isEmpty then str "."
  else if a.isEmpty then pathNormalize b
  else if b.isEmpty then pathNormalize a
  else pathNormalize (a ++ '/' :: b)

/-- `path.resolve(base, p)` (POSIX) for the uses in the source, where
`base` is always an absolute directory: an absolute `p` is normalized as
is, otherwise `p` is resolved against `base`. -/
def resolvePath (base p : Str) : Str :=
  if pathIsAbsolute p then pathNormalize p
  else if base.isEmpty then pathNormalize p
  else pathNormalize (base ++ '/' :: p)

/-- Drop the longest suffix of elements satisfying `f`. -/
def dropEndWhile (f : Char → Bool) (l : Str) : Str :=
  (l.reverse.dropWhile f).reverse

/-- Take the longest suffix of elements satisfying `f`. -/
def takeEndWhile (f : Char → Bool) (l : Str) : Str :=
  (l.reverse.takeWhile f).reverse

/-- `path.dirname` (POSIX): the path with its last segment and any
trailing separators removed; `.` for separator-free relative paths, `/`
when everything before the last segment is the root. -/
def dirnamePath (p : Str) : Str :=
  let q := dropEndWhile (fun c => c == '/') p
  let r := dropEndWhile (fun c => !(c == '/')) q
  let s := dropEndWhile (fun c => c == '/') r
  if s.isEmpty then (if pathIsAbsolute p then str "/" else str ".") else s

/-- `path.basename` (POSIX): the last segment of the path, ignoring
trailing separators. -/
def basenamePath (p : Str) : Str :=
  takeEndWhile (fun c => !(c == '/')) (dropEndWhile (fun c => c == '/') p)

/-! ## Config loader (`src/resolver/alias.ts`)

JSON reading and decoding are external effects; the loaders are modelled
from the point where the source inspects the decoded value: a read or
parse failure is an absent (`none`) parse result, for which the source
falls back to an empty result. -/

/-- The decoded `compilerOptions` part of a path-mapping config file:
an optional `baseUrl` string and an optional `paths` table, exactly as
found in the JSON document. -/
structure TsConfigRaw where
  baseUrl : Option Str
  paths : Option (List (Str × List Str))

/-- The Config Snapshot (`CacheEntry` in the source, minus the cache
timestamp, which no claim here concerns). -/
structure CacheEntry where
  workspaceRoot : Str
  tsconfigPaths : Option (List (Str × List Str))
  baseUrl : Option Str
  webpackAliases : Option (List (Str × Str))

/-- `loadTsconfig`: on a successful parse, resolve `baseUrl` against the
config file's directory and take `paths` verbatim; on failure both parts
are empty. -/
def loadTsconfig (tsconfigPath : Str) (parsed : Option TsConfigRaw) :
    Option Str × Option (List (Str × List Str)) :=
  match parsed with
  | none => (none, none)
  | some cfg =>
    let tsconfigDir := dirnamePath tsconfigPath
    (cfg.baseUrl.map (fun b => resolvePath tsconfigDir b), cfg.paths)

/-- `loadWebpackAliases`, from the point where the extracted alias object
literal has been parsed: each target that is not absolute is resolved
against the workspace root, absolute targets are kept as written. -/
def loadWebpackAliases (workspaceRoot : Str)
    (parsed : Option (List (Str × Str))) : Option (List (Str × Str)) :=
  parsed.map (List.map (fun kv =>
    (kv.1, if pathIsAbsolute kv.2 then kv.2 else resolvePath workspaceRoot kv.2)))

/-- The snapshot built by `loadAliasesForRoot` on a cache miss:
`tsconfigPath` is the discovered path-mapping config file (`none` when
`findNearestTsconfig` found nothing), `tsParsed` and `wpParsed` are the
decoded contents of the two config sources. -/
def mkCacheEntry (workspaceRoot : Str) (tsconfigPath : Option Str)
    (tsParsed : Option TsConfigRaw)
    (wpParsed : Option (List (Str × Str))) : CacheEntry :=
  let ts := match tsconfigPath with
    | some p => loadTsconfig p tsParsed
    | none => (none, none)
  { workspaceRoot := workspaceRoot
    tsconfigPaths := ts.2
    baseUrl := ts.1
    webpackAliases := loadWebpackAliases workspaceRoot wpParsed }

/-- The invariant claimed of snapshots: every stored path — the base-URL,
every path-mapping replacement value and every bundler alias target — is
absolute and filesystem-normalized. -/
def snapshotAllAbsNormal (e : CacheEntry) : Bool :=
  (match e.baseUrl with
   | some b => pathIsAbsolute b && (pathNormalize b == b)
   | none => true) &&
  (match e.tsconfigPaths with
   | some m => m.all (fun kv => kv.2.all (fun v =>
       pathIsAbsolute v && (pathNormalize v == v)))
   | none => true) &&
  (match e.webpackAliases with
   | some a => a.all (fun kv =>
       pathIsAbsolute kv.2 && (pathNormalize kv.2 == kv.2))
   | none => true)

/-! ### `findNearestTsconfig`

```ts
let currentDir = path.dirname(resourcePath);
while (currentDir.length > 1 && currentDir.startsWith(workspaceRootPath)) {
  const tsconfigPath = path.join(currentDir, 'tsconfig.json');
  try { await stat(tsconfigPath); return tsconfigPath; } catch {}
  const parentDir = path.dirname(currentDir);
  if (parentDir === currentDir) break;
  currentDir = parentDir;
}
const rootTsconfigPath = path.join(workspaceRootPath, 'tsconfig.json');
try { await stat(rootTsconfigPath); return rootTsconfigPath; }
catch { return undefined; }
```

The loop is modelled with a fuel parameter; the wrapper passes more fuel
than the loop can consume (every `dirname` step on a directory that
passes the `length > 1` test strictly shortens it or yields a
length-one fixpoint, so the loop runs at most `length + 2` times), so
exhausted fuel coincides with normal loop exit into the fallback. -/

def tsconfigFileName : Str := str "tsconfig.json"

/-- The upward walk of `findNearestTsconfig`. -/
def findNearestAux (statF : Str → Bool) (root : Str) :
    Nat → Str → Option Str
  | 0, _ => none
  | fuel + 1, currentDir =>
    if decide (1 < currentDir.length) && strStartsWith root currentDir then
      let tsPath := joinPath currentDir tsconfigFileName
      if statF tsPath then some tsPath
      else
        let parentDir := dirnamePath currentDir
        if parentDir = currentDir then none
        else findNearestAux statF root fuel parentDir
    else none

/-- `findNearestTsconfig resourcePath workspaceRootPath` over a
filesystem existence test. -/
def findNearestTsconfig (statF : Str → Bool) (resourcePath root : Str) :
    Option Str :=
  match findNearestAux statF root ((dirnamePath resourcePath).length + 2)
      (dirnamePath resourcePath) with
  | some p => some p
  | none =>
    let rootTs := joinPath root tsconfigFileName
    if statF rootTs then some rootTs else none

/-- The chain of directories the walk visits, in visiting order.  Written
from the spec for comparison: the containing directory of the requesting
file upward, as long as the directory is inside the workspace root, with
the same fuel bound as the walk itself. -/
def walkChainAux (root : Str) : Nat → Str → List Str
  | 0, _ => []
  | fuel + 1, d =>
    if decide (1 < d.length) && strStartsWith root d then
      d :: (let p := dirnamePath d; if p = d then [] else walkChainAux root fuel p)
    else []

/-- `findNearestTsconfig` as the spec words it: the first directory along
the upward walk holding a config file wins; only if none does, the config
directly under the workspace root is used. -/
def nearestTsconfigSpec (statF : Str → Bool) (resourcePath root : Str) :
    Option Str :=
  match (walkChainAux root ((dirnamePath resourcePath).length + 2)
      (dirnamePath resourcePath)).find?
      (fun d => statF (joinPath d tsconfigFileName)) with
  | some d => some (joinPath d tsconfigFileName)
  | none =>
    if statF (joinPath root tsconfigFileName) then
      some (joinPath root tsconfigFileName)
    else none

/-! ## Alias matcher (`resolveAliasToFiles`)

The source compiles a path-mapping key containing `*` to the regular
expression `'^' + escapeExceptStar(key).replace(/\*/g, '(.*)') + '$'`.
`escapeExceptStar` escapes every regex metacharacter except `*`
(its character class lists `- \ ^ $ + ? . ( ) | [ ] / { }`), so the
compiled regex denotes: the literal pieces of the key between the `*`s,
in order, anchored at both ends, with each `*` matching arbitrary text.
`m[1]`, the text of the first `*`, is captured greedily: the longest
leading piece such that the rest of the key still matches the rest of
the specifier.  The model below implements exactly that denotation. -/

/-- `true` iff some suffix of the string (the string itself included)
satisfies `f`; this is a wildcard consuming an arbitrary prefix. -/
def anySuffix (f : Str → Bool) : Str → Bool
  | [] => f []
  | c :: t => f (c :: t) || anySuffix f t

/-- Anchored match of the remaining literal pieces (separated by
wildcards) against `t`: `t = parts[0] ++ w₁ ++ parts[1] ++ … `, ending
exactly with the last piece.  The fuel argument only drives the
structural recursion; `parts.length` is always enough. -/
def restMatchFuel : Nat → List Str → Str → Bool
  | _, [], t => t.isEmpty
  | _, [p], t => t == p
  | 0, _ :: _ :: _, _ => false
  | fuel + 1, p :: q :: ps, t =>
    p.isPrefixOf t &&
      anySuffix (fun u => restMatchFuel fuel (q :: ps) u) (t.drop p.length)

/-- Anchored match of the remaining literal pieces `parts` against `t`. -/
def restMatch (parts : List Str) (t : Str) : Bool :=
  restMatchFuel parts.length parts t

/-- The greedy first capture: the longest prefix `w` of `u` such that the
remaining pieces still match the rest of `u`. -/
def greedyCapture (ps : List Str) (u : Str) : Option Str :=
  ((List.range (u.length + 1)).reverse.find? fun i => restMatch ps (u.drop i)).map
    (fun i => u.take i)

/-- `spec.match(new RegExp(pattern))` for the compiled key pattern:
`some w` with `w` the first capture when the specifier matches, `none`
otherwise.  Only called for keys containing `*`. -/
def wildcardCapture (key spec : Str) : Option Str :=
  match splitOnChar '*' key with
  | [] => none
  | p :: rest =>
    if rest.isEmpty then none
    else if p.isPrefixOf spec then greedyCapture rest (spec.drop p.length)
    else none

/-- The `$`-substitution of `String.prototype.replace` applied to a
string replacement argument (ECMA-262 GetSubstitution; the search value
`'*'` is a plain string, so there are no capture groups): `$$` inserts
`$`, `$&` the matched text, `$` followed by the backquote character
(code 96) the text before the match, `$'` the text after it; every other
`$`-sequence (including `$1`…`$99`, which name absent captures here) is
literal, as is a lone trailing `$`. -/
def getSubstitution (matched pre post : Str) : Str → Str
  | [] => []
  | [c] => [c]
  | c :: b :: t =>
    if c = '$' then
      if b = '$' then '$' :: getSubstitution matched pre post t
      else if b = '&' then matched ++ getSubstitution matched pre post t
      else if b = Char.ofNat 96 then pre ++ getSubstitution matched pre post t
      else if b = '\'' then post ++ getSubstitution matched pre post t
      else '$' :: getSubstitution matched pre post (b :: t)
    else c :: getSubstitution matched pre post (b :: t)

/-- The scan of `val.replace('*', w)` for the first `*`; `cur` holds the
consumed prefix in reverse.  On a hit, the replacement string `w` is
spliced in with the `$`-substitution applied against the match. -/
def replaceFirstStarAux (w cur : Str) : Str → Str
  | [] => cur.reverse
  | c :: rest =>
    if c = '*' then
      cur.reverse ++ getSubstitution ['*'] cur.reverse rest w ++ rest
    else replaceFirstStarAux w (c :: cur) rest

/-- JavaScript `val.replace('*', wildcard)`: replace the first `*` with
the wildcard text, applying the `$`-substitution patterns that
`String.prototype.replace` interprets in a string replacement. -/
def replaceFirstStar (w v : Str) : Str := replaceFirstStarAux w [] v

/-- Resolution of a substituted replacement pattern: against the base-URL
if one exists, else against the project root. -/
def resolveAgainstBase (baseUrl : Option Str) (root v : Str) : Str :=
  match baseUrl with
  | some b => resolvePath b v
  | none => resolvePath root v

/-- Stable insertion into a list sorted by descending key length: the new
entry goes before the first entry whose key is no longer, so entries with
equal key length keep their original relative order. -/
def insertByLen {α : Type} (x : Str × α) :
    List (Str × α) → List (Str × α)
  | [] => [x]
  | y :: ys =>
    if y.1.length ≤ x.1.length then x :: y :: ys else y :: insertByLen x ys

/-- `entries.sort((a, b) => b[0].length - a[0].length)`: a stable sort by
descending key length (JavaScript array sort is stable). -/
def sortByKeyLenDesc {α : Type} (l : List (Str × α)) : List (Str × α) :=
  l.foldr insertByLen []

/-- The body of the webpack-alias loop: push one candidate when the
specifier equals the alias or extends it across a `/`. -/
def webpackAliasStep (spec : Str) (results : List Str) (kv : Str × Str) :
    List Str :=
  let aliasKey := kv.1
  let target := kv.2
  if spec == aliasKey || strStartsWith (aliasKey ++ str "/") spec then
    let remainder :=
      if spec == aliasKey then str "" else spec.drop (aliasKey.length + 1)
    results ++ [joinPath target remainder]
  else results

/-- The body of the tsconfig-paths loop: wildcard keys match via the
compiled regex, wildcard-free keys match only on equality; each
replacement value contributes one candidate. -/
def tsconfigPathsStep (spec root : Str) (baseUrl : Option Str)
    (results : List Str) (kv : Str × List Str) : List Str :=
  let key := kv.1
  let vals := kv.2
  if key.contains '*' then
    match wildcardCapture key spec with
    | some w =>
      results ++ vals.map (fun v => resolveAgainstBase baseUrl root (replaceFirstStar w v))
    | none => results
  else
    if spec == key then
      results ++ vals.map (fun v => resolveAgainstBase baseUrl root v)
    else results

/-- `Array.from(new Set(l))`: de-duplicate keeping the first occurrence
of each element, in insertion order. -/
def dedupKeepFirst (l : List Str) : List Str :=
  l.foldl (fun acc x => if x ∈ acc then acc else acc ++ [x]) []

/-- `resolveAliasToFiles(spec, resource)` from the loaded snapshot `c`:
webpack aliases first, then tsconfig paths, each sorted by descending key
length, every pushed candidate normalized and de-duplicated at the end. -/
def resolveAliasToFiles (c : CacheEntry) (workspaceRoot spec : Str) :
    List Str :=
  let results : List Str := []
  let results := match c.webpackAliases with
    | some a => (sortByKeyLenDesc a).foldl (webpackAliasStep spec) results
    | none => results
  let results := match c.tsconfigPaths with
    | some m =>
      (sortByKeyLenDesc m).foldl (tsconfigPathsStep spec workspaceRoot c.baseUrl) results
    | none => results
  dedupKeepFirst (results.map pathNormalize)

/-- The candidates one bundler-alias entry contributes, written from the
spec's words. -/
def bundlerEntryCands (spec : Str) (kv : Str × Str) : List Str :=
  if spec == kv.1 then [joinPath kv.2 (str "")]
  else if strStartsWith (kv.1 ++ str "/") spec then
    [joinPath kv.2 (spec.drop (kv.1.length + 1))]
  else []

/-- The candidates one path-mapping entry contributes, written from the
spec's words. -/
def mappingEntryCands (spec root : Str) (baseUrl : Option Str)
    (kv : Str × List Str) : List Str :=
  if kv.1.contains '*' then
    match wildcardCapture kv.1 spec with
    | some w => kv.2.map (fun v => resolveAgainstBase baseUrl root (replaceFirstStar w v))
    | none => []
  else if spec == kv.1 then kv.2.map (fun v => resolveAgainstBase baseUrl root v)
  else []

/-- The alias matcher as the spec words it: bundler-alias candidates,
then path-mapping candidates, each group from its entries in descending
key-length order, all normalized, duplicates removed keeping the first
occurrence. -/
def aliasCandidatesSpec (c : CacheEntry) (root spec : Str) : List Str :=
  dedupKeepFirst
    (((match c.webpackAliases with
       | some a => (sortByKeyLenDesc a).flatMap (bundlerEntryCands spec)
       | none => []) ++
      (match c.tsconfigPaths with
       | some m => (sortByKeyLenDesc m).flatMap (mappingEntryCands spec root c.baseUrl)
       | none => [])).map pathNormalize)

/-! ## Extension/existence prober

Two prober variants exist in the source.  `findFileWithExtensions`
(`src/resolver/findFile.ts`) starts one existence check per suffix and
combines them with `Promise.race`:

```ts
return Promise.race(
  candidates.map(uri =>
    statIfExists(uri).then(exists => exists ? uri : Promise.reject())
  )
).catch(() => undefined);
```

Each mapped promise settles — fulfilled with its candidate when the stat
succeeds, rejected otherwise — and the race adopts the FIRST promise to
settle, whether fulfilled or rejected; the trailing `catch` turns a
rejection into `undefined`.  The settle order of the concurrent checks is
not determined by the program, so it is passed as an explicit argument: a
list of check indices in the order their stats complete.

`findFileByBaseName` (the other revision of the resolver) probes a short
suffix list sequentially and then falls back to a directory scan. -/

/-- The filesystem: an existence test and a directory listing
(`none` when the directory cannot be read; each entry is a name plus an
is-directory flag). -/
structure FS where
  stat : Str → Bool
  readDir : Str → Option (List (Str × Bool))

/-- The fixed suffix priority list of `src/resolver/findFile.ts`. -/
def exts : List Str :=
  [str "", str ".ts", str ".js", str ".tsx", str ".jsx", str ".json",
   str ".png", str ".jpg", str ".jpeg", str ".svg", str ".webp", str ".gif",
   str ".bmp", str ".ico",
   str "/index.ts", str "/index.js", str "/index.png", str "/index.jpg",
   str "/index.svg"]

/-- `findFileWithExtensions` under `Promise.race` semantics:
`settleOrder` lists the indices of the existence checks in completion
order; the first check to settle decides the outcome — its candidate if
it exists, `undefined` if that first-settled check was a rejection. -/
def findFileWithExtensions (statF : Str → Bool) (base : Str)
    (extensions : List Str) (settleOrder : List Nat) : Option Str :=
  match settleOrder.find? (fun i => decide (i < extensions.length)) with
  | none => none
  | some i =>
    let cand := base ++ extensions.getD i (str "")
    if statF cand then some cand else none

/-- What the spec requires of phase-1 probing: the candidate of the first
suffix in priority order that exists, independent of timing. -/
def firstExistingByPriority (statF : Str → Bool) (base : Str)
    (extensions : List Str) : Option Str :=
  (extensions.find? (fun e => statF (base ++ e))).map (fun e => base ++ e)

/-- The phase-1 suffix list of `findFileByBaseName`. -/
def commonExtensions : List Str :=
  [str "", str ".ts", str ".js", str ".tsx", str ".jsx", str ".json"]

/-- `findFileByBaseName`: sequentially probe the common suffixes; if none
exists, list the directory containing the base path and return the first
non-directory entry whose name starts with the base name (re-checking
existence, as the source does); `none` when the directory cannot be read
or nothing matches. -/
def findFileByBaseName (fs : FS) (basePath : Str) : Option Str :=
  match commonExtensions.find? (fun e => fs.stat (basePath ++ e)) with
  | some e => some (basePath ++ e)
  | none =>
    let dir := dirnamePath basePath
    let fileName := basenamePath basePath
    match fs.readDir dir with
    | none => none
    | some entries =>
      match entries.find? (fun nd =>
          !nd.2 && strStartsWith fileName nd.1 && fs.stat (joinPath dir nd.1)) with
      | some nd => some (joinPath dir nd.1)
      | none => none

/-! ## Resolution orchestrator (`findFileForImport`, `src/resolver/findFile.ts`)

The orchestrator's collaborators that live outside the probe itself are
passed as context: the alias matcher with its editor-workspace state
(`resolveAliasToFiles(spec, documentUri)`), and the workspace-wide file
search (`vscode.workspace.findFiles`). -/

/-- `getBaseNameFromSpec` (`spec.split('/').pop() || spec`): the final
path segment; the whole specifier when that segment is empty. -/
def getBaseNameFromSpec (spec : Str) : Str :=
  match (splitOnChar '/' spec).getLast? with
  | some l => if l.isEmpty then spec else l
  | none => spec

/-- The orchestrator's collaborators and probe nondeterminism. -/
structure ResolverCtx where
  fs : FS
  settleOrder : Str → List Nat
  aliasCands : Str → Option Str → List Str
  findFilesTop : Str → List Str

/-- The loop over alias candidates: probe each in order, return the first
probe success. -/
def probeCandidates (ctx : ResolverCtx) : List Str → Option Str
  | [] => none
  | b :: bs =>
    match findFileWithExtensions ctx.fs.stat b exts (ctx.settleOrder b) with
    | some f => some f
    | none => probeCandidates ctx bs

/-- `findFileForImport(spec, documentUri)`: empty-specifier guard, quote
strip (`findFile.ts` inlines the body of `normalizeImportSpec`), relative
branch, alias candidates, workspace search, package verdict. -/
def findFileForImport (ctx : ResolverCtx) (spec : Str)
    (documentUri : Option Str) : Option Str :=
  if spec.isEmpty then none
  else
    let spec1 := normalizeImportSpec spec
    if strStartsWith (str ".") spec1 then
      match documentUri with
      | none => none
      | some doc =>
        let base := joinPath (dirnamePath doc) spec1
        findFileWithExtensions ctx.fs.stat base exts (ctx.settleOrder base)
    else
      match probeCandidates ctx (ctx.aliasCands spec1 documentUri) with
      | some f => some f
      | none =>
        match ctx.findFilesTop (getBaseNameFromSpec spec1) with
        | r :: _ => some r
        | [] => none

/-! ### The orchestrator over fallible delegates

For the never-throws claim the delegates are modelled in `Except`: each
may either return or throw.  The source wraps its whole body in
`try … catch (e) { return undefined; }`. -/

/-- Fallible collaborators: any of them may throw. -/
structure ThrowingCtx (ε : Type) where
  aliasCandsE : Str → Option Str → Except ε (List Str)
  probeE : Str → Except ε (Option Str)
  findFilesE : Str → Except ε (List Str)

/-- The candidate loop with a fallible probe; a thrown exception
propagates out of the loop, as in the source. -/
def probeCandidatesE {ε : Type} (probeE : Str → Except ε (Option Str)) :
    List Str → Except ε (Option Str)
  | [] => Except.ok none
  | b :: bs => do
    match ← probeE b with
    | some f => return (some f)
    | none => probeCandidatesE probeE bs

/-- The body of `findFileForImport` inside its top-level `try`:
exceptions of the delegates propagate. -/
def findFileForImportBody {ε : Type} (ctx : ThrowingCtx ε) (spec : Str)
    (documentUri : Option Str) : Except ε (Option Str) :=
  if spec.isEmpty then Except.ok none
  else
    let spec1 := normalizeImportSpec spec
    if strStartsWith (str ".") spec1 then
      match documentUri with
      | none => Except.ok none
      | some doc => ctx.probeE (joinPath (dirnamePath doc) spec1)
    else do
      let cands ← ctx.aliasCandsE spec1 documentUri
      match ← probeCandidatesE ctx.probeE cands with
      | some f => return (some f)
      | none => do
        let results ← ctx.findFilesE (getBaseNameFromSpec spec1)
        match results with
        | r :: _ => return (some r)
        | [] => return none

/-- `findFileForImport` with its top-level `catch`: a throwing body is
absorbed into `undefined`. -/
def findFileForImportE {ε : Type} (ctx : ThrowingCtx ε) (spec : Str)
    (documentUri : Option Str) : Except ε (Option Str) :=
  match findFileForImportBody ctx spec documentUri with
  | Except.ok v => Except.ok v
  | Except.error _ => Except.ok none

/-! ## Concrete fixtures for witnesses and counterexamples -/

/-- A filesystem where both `/a/b.ts` and `/a/b.js` exist. -/
def raceStat : Str → Bool := fun s => s == str "/a/b.ts" || s == str "/a/b.js"

/-- A settle order where the `.js` check (index 2) completes first. -/
def raceOrderJsFirst : List Nat :=
  [2, 1, 0, 3, 4, 5, 6, 7, 8, 9, 10, 11, 12, 13, 14, 15, 16, 17, 18]

/-- A settle order where the extension-less check (index 0) completes
first. -/
def raceOrderHeadFirst : List Nat :=
  [0, 1, 2, 3, 4, 5, 6, 7, 8, 9, 10, 11, 12, 13, 14, 15, 16, 17, 18]

/-- A filesystem where only `/d/u.mp3` exists, and listing `/d` yields a
subdirectory and that file. -/
def fsNoCommon : FS :=
  { stat := fun s => s == str "/d/u.mp3"
    readDir := fun d =>
      if d == str "/d" then some [(str "sub", true), (str "u.mp3", false)]
      else none }

/-- A resolver context over a filesystem holding only `/p/u.ts`. -/
def ctxRel : ResolverCtx :=
  { fs := { stat := fun s => s == str "/p/u.ts", readDir := fun _ => none }
    settleOrder := fun _ => [0, 1, 2, 3]
    aliasCands := fun _ _ => []
    findFilesTop := fun _ => [] }

/-- A filesystem where both a nested `tsconfig.json` and the workspace
root one exist. -/
def nestedStat : Str → Bool := fun s =>
  s == str "/proj/packages/app/tsconfig.json" || s == str "/proj/tsconfig.json"

/-- The snapshot loaded from a config with relative `paths` values and an
absolute but unnormalized webpack alias target. -/
def snapshotRawCex : CacheEntry :=
  mkCacheEntry (str "/proj") (some (str "/proj/tsconfig.json"))
    (some { baseUrl := some (str "src"), paths := some [(str "@/*", [str "src/*"])] })
    (some [(str "@", str "/proj/../lib")])

/-- A snapshot with aliases `@` → `/A` and `@/ui` → `/B`, the shorter key
listed first. -/
def aliasOrderEx : CacheEntry :=
  { workspaceRoot := str "/proj", tsconfigPaths := none, baseUrl := none,
    webpackAliases := some [(str "@", str "/A"), (str "@/ui", str "/B")] }

/-- A snapshot with the path mapping `@/*` → `src/*` under base-URL
`/proj`. -/
def wildcardSnapshot : CacheEntry :=
  { workspaceRoot := str "/proj", tsconfigPaths := some [(str "@/*", [str "src/*"])],
    baseUrl := some (str "/proj"), webpackAliases := none }

theorem strStartsWith_singleton_cons (q : Char) (rest : Str) :
    strStartsWith [q] (q :: rest) = true := by
  simp [strStartsWith, List.isPrefixOf]

theorem strEndsWith_singleton_append (q : Char) (l : Str) :
    strEndsWith [q] (l ++ [q]) = true := by
  simp [strEndsWith, List.isPrefixOf]

/-- C8 counterexample: on the one-character input `"` (a lone quote, not
a wrapped pair, hence an ambiguity the claim says is returned unchanged)
the source normalizer returns the empty string, disagreeing with the
claimed behavior. -/
theorem normalizeImportSpec_lone_quote_cex :
    normalizeImportSpec (str "\"") ≠ normalizeSpecClaimed (str "\"") ∧
      normalizeImportSpec (str "\"") = str "" := by
  constructor
  · decide
  · decide

/-- C8 (amended): the normalizer strips exactly one layer from any input
genuinely wrapped in a matching pair of straight single or double quotes,
returns any input that is not quote-wrapped (for example one with
mismatched quotes) unchanged, and maps each one-character quote string to
the empty string. -/
theorem normalizeImportSpec_characterization :
    (∀ (q : Char) (m : Str), (q = '"' ∨ q = '\'') →
        normalizeImportSpec (q :: (m ++ [q])) = m) ∧
    (∀ s : Str,
        ((strStartsWith (str "\"") s && strEndsWith (str "\"") s) ||
         (strStartsWith (str "'") s && strEndsWith (str "'") s)) = false →
        normalizeImportSpec s = s) ∧
    (normalizeImportSpec (str "\"") = str "" ∧
     normalizeImportSpec (str "'") = str "") := by
  refine ⟨?_, ?_, by decide, by decide⟩
  · intro q m hq
    have hcond :
        ((strStartsWith (str "\"") (q :: (m ++ [q])) &&
          strEndsWith (str "\"") (q :: (m ++ [q]))) ||
         (strStartsWith (str "'") (q :: (m ++ [q])) &&
          strEndsWith (str "'") (q :: (m ++ [q])))) = true := by
      rcases hq with hq | hq <;> subst hq
      · apply Bool.or_eq_true_iff.mpr
        left
        rw [Bool.and_eq_true]
        constructor
        · exact strStartsWith_singleton_cons '"' (m ++ ['"'])
        · have : ('"' :: (m ++ ['"'])) = (('"' :: m) ++ ['"']) := by simp
          rw [this]
          exact strEndsWith_singleton_append '"' ('"' :: m)
      · apply Bool.or_eq_true_iff.mpr
        right
        rw [Bool.and_eq_true]
        constructor
        · exact strStartsWith_singleton_cons '\'' (m ++ ['\''])
        · have : ('\'' :: (m ++ ['\''])) = (('\'' :: m) ++ ['\'']) := by simp
          rw [this]
          exact strEndsWith_singleton_append '\'' ('\'' :: m)
    rw [normalizeImportSpec, hcond]
    simp [sliceOneOne]
  · intro s h
    rw [normalizeImportSpec, h]
    simp

/-- C8 witness: the amended characterization applied at concrete inputs:
the wrapped input `"./x"` has its single quote layer stripped, and the
mismatched input `"ab'` is returned unchanged. -/
theorem normalizeImportSpec_characterization_witness :
    normalizeImportSpec (str "\"./x\"") = str "./x" ∧
      normalizeImportSpec (str "\"ab'") = str "\"ab'" := by
  constructor
  · have h := normalizeImportSpec_characterization.1 '"' (str "./x") (Or.inl rfl)
    have harg : ('"' :: (str "./x" ++ ['"'])) = str "\"./x\"" := by decide
    rw [harg] at h
    exact h
  · exact normalizeImportSpec_characterization.2.1 (str "\"ab'") (by decide)

/-! ## C1: phase-1 probing and completion order -/

/-- C1 (code bug): phase-1 probing is NOT independent of completion
times.  With both `/a/b.ts` and `/a/b.js` present, a settle order in
which the `.js` check completes first makes the race return `/a/b.js`,
although `.ts` precedes `.js` in the fixed priority list (middle
conjunct); and a settle order in which the extension-less check (whose
file does not exist) completes first makes the race return nothing at
all, despite two candidates existing. -/
theorem findFileWithExtensions_race_timing_dependent :
    findFileWithExtensions raceStat (str "/a/b") exts raceOrderJsFirst =
      some (str "/a/b.js") ∧
    firstExistingByPriority raceStat (str "/a/b") exts =
      some (str "/a/b.ts") ∧
    findFileWithExtensions raceStat (str "/a/b") exts raceOrderHeadFirst =
      none := by
  refine ⟨by decide, by decide, by decide⟩

/-! ## C3: relative specifiers -/

theorem startsWithDot_shape {spec : Str}
    (h : strStartsWith (str ".") spec = true) : ∃ rest, spec = '.' :: rest := by
  cases spec with
  | nil => simp [strStartsWith, str, List.isPrefixOf] at h
  | cons c rest =>
    simp [strStartsWith, str, List.isPrefixOf] at h
    exact ⟨rest, by rw [h]⟩

theorem normalizeImportSpec_dot (rest : Str) :
    normalizeImportSpec ('.' :: rest) = '.' :: rest := by
  simp [normalizeImportSpec, strStartsWith, str, List.isPrefixOf]

/-- C3: a relative specifier (one starting with `.`) resolves to `none`
when no requesting file is supplied; with a requesting file it resolves
to exactly the probe result of the specifier joined onto the requesting
file's directory — the alias matcher and the workspace search are never
consulted. -/
theorem findFileForImport_relative_contract :
    (∀ (ctx : ResolverCtx) (spec : Str),
        strStartsWith (str ".") spec = true →
        findFileForImport ctx spec none = none) ∧
    (∀ (ctx : ResolverCtx) (spec doc : Str),
        strStartsWith (str ".") spec = true →
        findFileForImport ctx spec (some doc) =
          findFileWithExtensions ctx.fs.stat (joinPath (dirnamePath doc) spec)
            exts (ctx.settleOrder (joinPath (dirnamePath doc) spec))) := by
  constructor
  · intro ctx spec h
    obtain ⟨rest, hrest⟩ := startsWithDot_shape h
    subst hrest
    simp [findFileForImport, normalizeImportSpec_dot, h]
  · intro ctx spec doc h
    obtain ⟨rest, hrest⟩ := startsWithDot_shape h
    subst hrest
    simp [findFileForImport, normalizeImportSpec_dot, h]

/-- C3 witness: with a concrete context, `./u` with no requesting file
gives `none`, and with requesting file `/p/a.ts` gives exactly the probe
result at `/p/./u`. -/
theorem findFileForImport_relative_contract_witness :
    findFileForImport ctxRel (str "./u") none = none ∧
    findFileForImport ctxRel (str "./u") (some (str "/p/a.ts")) =
      findFileWithExtensions ctxRel.fs.stat
        (joinPath (dirnamePath (str "/p/a.ts")) (str "./u")) exts
        (ctxRel.settleOrder (joinPath (dirnamePath (str "/p/a.ts")) (str "./u"))) :=
  ⟨findFileForImport_relative_contract.1 ctxRel (str "./u") (by decide),
   findFileForImport_relative_contract.2 ctxRel (str "./u") (str "/p/a.ts")
     (by decide)⟩

/-! ## C9: the entry point never throws -/

/-- C9: whatever the delegates do — any of normalization, config
loading and alias matching (`aliasCandsE`), probing (`probeE`), or the
workspace search (`findFilesE`) may throw — the resolution entry point
absorbs the exception and returns a plain result: a resolved location or
`none`. -/
theorem findFileForImportE_never_throws :
    ∀ (ε : Type) (ctx : ThrowingCtx ε) (spec : Str) (doc : Option Str),
      ∃ v : Option Str, findFileForImportE ctx spec doc = Except.ok v := by
  intro ε ctx spec doc
  cases h : findFileForImportBody ctx spec doc with
  | ok v => exact ⟨v, by simp [findFileForImportE, h]⟩
  | error e => exact ⟨none, by simp [findFileForImportE, h]⟩

/-! ## C10: the empty specifier -/

/-- C10: the empty specifier resolves to `none` immediately, for every
context (hence before any delegate or filesystem access) and regardless
of the requesting file; in the fallible model the result is an ordinary
`none` even when every delegate throws on any call. -/
theorem findFileForImport_empty_spec :
    ∀ (ctx : ResolverCtx) (doc : Option Str) (ε : Type)
      (tctx : ThrowingCtx ε) (docE : Option Str),
      findFileForImport ctx (str "") doc = none ∧
      findFileForImportE tctx (str "") docE = Except.ok none := by
  intro ctx doc ε tctx docE
  exact ⟨rfl, rfl⟩

/-! ## C2: the directory-scan fallback of `findFileByBaseName` -/

theorem find?_and_eq_of_implied {α : Type} (g st : α → Bool) :
    ∀ (entries : List α),
      (∀ nd ∈ entries, g nd = true → st nd = true) →
      entries.find? (fun nd => g nd && st nd) = entries.find? g := by
  intro entries
  induction entries with
  | nil => intro _; rfl
  | cons nd rest ih =>
    intro h
    cases hg : g nd with
    | true =>
      have hst := h nd (by simp) hg
      simp [List.find?, hg, hst]
    | false =>
      simp [List.find?, hg]
      exact ih (fun x hx hgx => h x (by simp [hx]) hgx)

/-- C2: when no suffix of the fixed phase-1 list yields an existing file,
the prober lists the directory containing the base path and returns the
first listed non-directory entry whose name begins with the base path's
final segment; `none` when the directory cannot be listed or no entry
matches.  The second hypothesis is filesystem consistency: a
non-directory entry returned by the listing passes the existence check. -/
theorem findFileByBaseName_fallback_scan :
    ∀ (fs : FS) (basePath : Str),
      (∀ e ∈ commonExtensions, fs.stat (basePath ++ e) = false) →
      (∀ entries, fs.readDir (dirnamePath basePath) = some entries →
          ∀ nd ∈ entries, nd.2 = false →
            fs.stat (joinPath (dirnamePath basePath) nd.1) = true) →
      findFileByBaseName fs basePath =
        match fs.readDir (dirnamePath basePath) with
        | none => none
        | some entries =>
          (entries.find? (fun nd =>
              !nd.2 && strStartsWith (basenamePath basePath) nd.1)).map
            (fun nd => joinPath (dirnamePath basePath) nd.1) := by
  intro fs basePath h1 h2
  have hph1 : List.find? (fun e => fs.stat (basePath ++ e)) commonExtensions = none := by
    rw [List.find?_eq_none]
    intro e he
    simp [h1 e he]
  cases hrd : fs.readDir (dirnamePath basePath) with
  | none =>
    simp only [findFileByBaseName, hph1, hrd]
  | some entries =>
    have key : ∀ nd ∈ entries,
        (!nd.2 && strStartsWith (basenamePath basePath) nd.1) = true →
        fs.stat (joinPath (dirnamePath basePath) nd.1) = true := by
      intro nd hnd hg
      have hnd2 : nd.2 = false := by
        simp only [Bool.and_eq_true, Bool.not_eq_true'] at hg
        exact hg.1
      exact h2 entries hrd nd hnd hnd2
    have heq : List.find? (fun nd =>
          !nd.2 && strStartsWith (basenamePath basePath) nd.1 &&
            fs.stat (joinPath (dirnamePath basePath) nd.1)) entries =
        List.find? (fun nd => !nd.2 && strStartsWith (basenamePath basePath) nd.1)
          entries :=
      find?_and_eq_of_implied _ _ entries key
    simp only [findFileByBaseName, hph1, hrd, heq]
    cases hf : List.find?
        (fun nd => !nd.2 && strStartsWith (basenamePath basePath) nd.1) entries <;>
      simp [hf]

/-- C2 witness: under a filesystem holding only `/d/u.mp3`, probing base
path `/d/u` finds nothing in phase 1 and the directory scan returns
`/d/u.mp3`, skipping the subdirectory entry listed before it. -/
theorem findFileByBaseName_fallback_scan_witness :
    findFileByBaseName fsNoCommon (str "/d/u") = some (str "/d/u.mp3") := by
  have h := findFileByBaseName_fallback_scan fsNoCommon (str "/d/u")
    (by decide)
    (by
      intro entries h nd hnd hnd2
      have hread : fsNoCommon.readDir (dirnamePath (str "/d/u")) =
          some [(str "sub", true), (str "u.mp3", false)] := by decide
      rw [hread] at h
      injection h with h
      subst h
      have hcases : nd = (str "sub", true) ∨ nd = (str "u.mp3", false) := by
        simpa using hnd
      rcases hcases with hc | hc <;> subst hc
      · exact absurd hnd2 (by decide)
      · decide)
  rw [h]
  decide

/-! ## C7: nearest path-mapping config wins -/

theorem findNearestAux_eq_walk (statF : Str → Bool) (root : Str) :
    ∀ (fuel : Nat) (d : Str),
      findNearestAux statF root fuel d =
        ((walkChainAux root fuel d).find?
            (fun x => statF (joinPath x tsconfigFileName))).map
          (fun x => joinPath x tsconfigFileName) := by
  intro fuel
  induction fuel with
  | zero => intro d; rfl
  | succ n ih =>
    intro d
    by_cases hc : (decide (1 < d.length) && strStartsWith root d) = true
    · simp only [findNearestAux, walkChainAux, hc, if_true]
      cases hs : statF (joinPath d tsconfigFileName) with
      | true => simp [List.find?, hs]
      | false =>
        by_cases hp : dirnamePath d = d
        · simp [List.find?, hs, hp]
        · simp [List.find?, hs, hp, ih (dirnamePath d)]
    · have hc' : (decide (1 < d.length) && strStartsWith root d) = false :=
        Bool.not_eq_true _ ▸ Bool.eq_false_iff.mpr (fun h => hc h)
      simp [findNearestAux, walkChainAux, hc']

/-- C7: first, if the directory containing the requesting file lies
inside the workspace root and itself holds a `tsconfig.json`, the walk
selects that config — regardless of whether the workspace root also has
one; second, the full loader equals its specification: the first config
found while walking upward wins, and only when the whole walk finds
nothing is the config directly under the workspace root used. -/
theorem findNearestTsconfig_first_found :
    (∀ (statF : Str → Bool) (resourcePath root : Str),
        1 < (dirnamePath resourcePath).length →
        strStartsWith root (dirnamePath resourcePath) = true →
        statF (joinPath (dirnamePath resourcePath) tsconfigFileName) = true →
        findNearestTsconfig statF resourcePath root =
          some (joinPath (dirnamePath resourcePath) tsconfigFileName)) ∧
    (∀ (statF : Str → Bool) (resourcePath root : Str),
        findNearestTsconfig statF resourcePath root =
          nearestTsconfigSpec statF resourcePath root) := by
  constructor
  · intro statF resourcePath root h1 h2 h3
    have haux : findNearestAux statF root
        ((dirnamePath resourcePath).length + 2) (dirnamePath resourcePath) =
        some (joinPath (dirnamePath resourcePath) tsconfigFileName) := by
      have h1' : decide (1 < (dirnamePath resourcePath).length) = true := by
        simpa using h1
      simp only [findNearestAux, h1', h2, Bool.and_self, if_true, h3]
    unfold findNearestTsconfig
    rw [haux]
  · intro statF resourcePath root
    unfold findNearestTsconfig nearestTsconfigSpec
    rw [findNearestAux_eq_walk]
    cases hf : (walkChainAux root ((dirnamePath resourcePath).length + 2)
        (dirnamePath resourcePath)).find?
        (fun x => statF (joinPath x tsconfigFileName)) <;> simp [hf]

/-- C7 witness: with both `/proj/packages/app/tsconfig.json` and
`/proj/tsconfig.json` present, a requesting file inside the nested
package resolves to the nested config. -/
theorem findNearestTsconfig_first_found_witness :
    findNearestTsconfig nestedStat (str "/proj/packages/app/a.ts") (str "/proj") =
      some (joinPath (dirnamePath (str "/proj/packages/app/a.ts")) tsconfigFileName) :=
  findNearestTsconfig_first_found.1 nestedStat (str "/proj/packages/app/a.ts")
    (str "/proj") (by decide) (by decide) (by decide)

/-! ## C5: candidate ordering of the alias matcher -/

theorem foldl_push_eq_flatMap {α β : Type} (f : List β → α → List β)
    (g : α → List β) (h : ∀ acc x, f acc x = acc ++ g x) :
    ∀ (l : List α) (init : List β), l.foldl f init = init ++ l.flatMap g := by
  intro l
  induction l with
  | nil => intro init; simp
  | cons x xs ih =>
    intro init
    rw [List.foldl_cons, h, ih, List.flatMap_cons, List.append_assoc]

theorem webpackAliasStep_eq (spec : Str) (acc : List Str) (kv : Str × Str) :
    webpackAliasStep spec acc kv = acc ++ bundlerEntryCands spec kv := by
  unfold webpackAliasStep bundlerEntryCands
  cases h1 : (spec == kv.1) with
  | true => simp [h1]
  | false =>
    cases h2 : strStartsWith (kv.1 ++ str "/") spec with
    | true => simp [h1, h2]
    | false => simp [h1, h2]

theorem tsconfigPathsStep_eq (spec root : Str) (baseUrl : Option Str)
    (acc : List Str) (kv : Str × List Str) :
    tsconfigPathsStep spec root baseUrl acc kv =
      acc ++ mappingEntryCands spec root baseUrl kv := by
  unfold tsconfigPathsStep mappingEntryCands
  cases hk : kv.1.contains '*' with
  | true =>
    simp only [hk]
    cases hw : wildcardCapture kv.1 spec <;> simp
  | false =>
    simp only [hk]
    cases he : (spec == kv.1) <;> simp [he]

/-- The alias matcher, rewritten from its push-loop form into the spec's
declarative form: bundler-alias candidates, then path-mapping candidates,
each from the entries sorted by descending key length, all normalized,
de-duplicated keeping first occurrences. -/
theorem resolveAliasToFiles_eq_specForm :
    ∀ (c : CacheEntry) (root spec : Str),
      resolveAliasToFiles c root spec = aliasCandidatesSpec c root spec := by
  intro c root spec
  unfold resolveAliasToFiles aliasCandidatesSpec
  cases hw : c.webpackAliases with
  | none =>
    cases ht : c.tsconfigPaths with
    | none => rfl
    | some m =>
      dsimp only
      rw [foldl_push_eq_flatMap _ _ (tsconfigPathsStep_eq spec root c.baseUrl)]
  | some a =>
    cases ht : c.tsconfigPaths with
    | none =>
      dsimp only
      rw [foldl_push_eq_flatMap _ _ (webpackAliasStep_eq spec)]
      simp
    | some m =>
      dsimp only
      rw [foldl_push_eq_flatMap _ _ (webpackAliasStep_eq spec),
          foldl_push_eq_flatMap _ _ (tsconfigPathsStep_eq spec root c.baseUrl)]
      simp

theorem mem_insertByLen {α : Type} (x y : Str × α) :
    ∀ (l : List (Str × α)), y ∈ insertByLen x l → y = x ∨ y ∈ l := by
  intro l
  induction l with
  | nil =>
    intro h
    simp [insertByLen] at h
    exact Or.inl h
  | cons z zs ih =>
    intro h
    unfold insertByLen at h
    by_cases hc : z.1.length ≤ x.1.length
    · rw [if_pos hc] at h
      rcases List.mem_cons.mp h with h | h
      · exact Or.inl h
      · exact Or.inr h
    · rw [if_neg hc] at h
      rcases List.mem_cons.mp h with h | h
      · exact Or.inr (List.mem_cons.mpr (Or.inl h))
      · rcases ih h with h | h
        · exact Or.inl h
        · exact Or.inr (List.mem_cons.mpr (Or.inr h))

theorem pairwise_insertByLen {α : Type} (x : Str × α) :
    ∀ l : List (Str × α),
      List.Pairwise (fun a b : Str × α => b.1.length ≤ a.1.length) l →
      List.Pairwise (fun a b : Str × α => b.1.length ≤ a.1.length)
        (insertByLen x l) := by
  intro l
  induction l with
  | nil => intro _; simp [insertByLen]
  | cons z zs ih =>
    intro hp
    rcases List.pairwise_cons.mp hp with ⟨hz, hzs⟩
    unfold insertByLen
    by_cases hc : z.1.length ≤ x.1.length
    · rw [if_pos hc]
      refine List.pairwise_cons.mpr ⟨?_, hp⟩
      intro y hy
      rcases List.mem_cons.mp hy with h | h
      · rw [h]; exact hc
      · exact Nat.le_trans (hz y h) hc
    · rw [if_neg hc]
      refine List.pairwise_cons.mpr ⟨?_, ih hzs⟩
      intro y hy
      rcases mem_insertByLen x y zs hy with h | h
      · rw [h]
        exact Nat.le_of_lt (Nat.lt_of_not_le hc)
      · exact hz y h

theorem sortByKeyLenDesc_sorted {α : Type} :
    ∀ (l : List (Str × α)),
      List.Pairwise (fun a b : Str × α => b.1.length ≤ a.1.length)
        (sortByKeyLenDesc l) := by
  intro l
  induction l with
  | nil => simp [sortByKeyLenDesc]
  | cons x xs ih =>
    unfold sortByKeyLenDesc at ih ⊢
    rw [List.foldr_cons]
    exact pairwise_insertByLen x _ ih

/-- C5: the matcher's output is the spec's: all bundler-alias candidates
precede all path-mapping candidates, each group drawn from its entries in
descending key-length order (the sort is ordered by descending key
length, second conjunct), every candidate normalized, duplicates removed
keeping the first occurrence; in particular, with `@` → `/A` listed
before `@/ui` → `/B`, the specifier `@/ui/button` produces the
`/B`-derived candidate first. -/
theorem resolveAliasToFiles_ordering :
    (∀ (c : CacheEntry) (root spec : Str),
        resolveAliasToFiles c root spec = aliasCandidatesSpec c root spec) ∧
    (∀ (α : Type) (l : List (Str × α)),
        List.Pairwise (fun a b : Str × α => b.1.length ≤ a.1.length)
          (sortByKeyLenDesc l)) ∧
    resolveAliasToFiles aliasOrderEx (str "/proj") (str "@/ui/button") =
      [str "/B/button", str "/A/ui/button"] :=
  ⟨resolveAliasToFiles_eq_specForm, fun _ l => sortByKeyLenDesc_sorted l, by decide⟩

/-! ## Path algebra: idempotence of `pathNormalize`

These lemmas support the claims about canonical absolute candidates: a
path that has already been normalized is a fixed point of
`pathNormalize`, and normalization, `path.join` and `path.resolve`
preserve absoluteness. -/

theorem not_mem_splitOn {α : Type} [DecidableEq α] (x : α) :
    ∀ (xs : List α), ∀ s ∈ xs.splitOn x, x ∉ s := by
  intro xs
  induction xs with
  | nil =>
    intro s hs
    simp [List.splitOn, List.splitOnP_nil] at hs
    simp [hs]
  | cons c cs ih =>
    intro s hs
    rw [List.splitOn, List.splitOnP_cons] at hs
    by_cases hc : (c == x) = true
    · rw [if_pos hc] at hs
      rcases List.mem_cons.mp hs with h | h
      · simp [h]
      · exact ih s h
    · rw [if_neg hc] at hs
      cases hcs : List.splitOnP (fun a => a == x) cs with
      | nil => exact absurd hcs (List.splitOnP_ne_nil _ cs)
      | cons hd tl =>
        rw [hcs] at hs
        simp only [List.modifyHead] at hs
        rcases List.mem_cons.mp hs with h | h
        · rw [h]
          intro hmem
          rcases List.mem_cons.mp hmem with h' | h'
          · exact hc (by simp [h'])
          · exact ih hd (by rw [List.splitOn, hcs]; exact List.mem_cons_self hd tl) h'
        · exact ih s (by rw [List.splitOn, hcs]; exact List.mem_cons.mpr (Or.inr h))

theorem splitOnChar_no_sep (sep : Char) (s : Str) :
    ∀ piece ∈ splitOnChar sep s, sep ∉ piece :=
  not_mem_splitOn sep s

theorem splitOnChar_cons_sep (sep : Char) (s : Str) :
    splitOnChar sep (sep :: s) = [] :: splitOnChar sep s := by
  simp [splitOnChar, List.splitOn, List.splitOnP_cons]

theorem normStep_skip (ab : Bool) (acc : List Str) {s : Str}
    (h : s = [] ∨ s = str ".") : normStep ab acc s = acc := by
  rcases h with h | h <;> subst h <;> simp [normStep, str]

theorem normStep_push (ab : Bool) (acc : List Str) {s : Str}
    (h1 : s ≠ []) (h2 : s ≠ str ".") (h3 : s ≠ str "..") :
    normStep ab acc s = s :: acc := by
  have he : s.isEmpty = false := by
    cases s with
    | nil => exact absurd rfl h1
    | cons c cs => rfl
  simp [normStep, he, h2, h3]

theorem foldl_normStep_normal (ab : Bool) :
    ∀ (ns acc : List Str),
      (∀ s ∈ ns, s ≠ [] ∧ s ≠ str "." ∧ s ≠ str "..") →
      List.foldl (normStep ab) acc ns = ns.reverse ++ acc := by
  intro ns
  induction ns with
  | nil => intro acc _; simp
  | cons s rest ih =>
    intro acc h
    obtain ⟨h1, h2, h3⟩ := h s (List.mem_cons_self s rest)
    rw [List.foldl_cons, normStep_push ab acc h1 h2 h3,
        ih (s :: acc) (fun x hx => h x (List.mem_cons.mpr (Or.inr hx)))]
    simp

theorem foldl_normStep_dots :
    ∀ (ds acc : List Str),
      (∀ s ∈ ds, s = str "..") → (∀ s ∈ acc, s = str "..") →
      List.foldl (normStep false) acc ds = ds.reverse ++ acc := by
  intro ds
  induction ds with
  | nil => intro acc _ _; simp
  | cons s rest ih =>
    intro acc hds hacc
    have hs : s = str ".." := hds s (List.mem_cons_self s rest)
    have hstep : normStep false acc s = s :: acc := by
      subst hs
      cases acc with
      | nil => simp [normStep, str]
      | cons t acc' =>
        have ht : t = str ".." := hacc t (List.mem_cons_self t acc')
        simp [normStep, str, ht]
    rw [List.foldl_cons, hstep,
        ih (s :: acc) (fun x hx => hds x (List.mem_cons.mpr (Or.inr hx)))
          (fun x hx => by
            rcases List.mem_cons.mp hx with h | h
            · rw [h, hs]
            · exact hacc x h)]
    simp

theorem normSegs_self (ab : Bool) (ds ns : List Str)
    (hds : ∀ s ∈ ds, s = str "..") (hab : ab = true → ds = [])
    (hns : ∀ s ∈ ns, s ≠ [] ∧ s ≠ str "." ∧ s ≠ str "..") :
    normSegs ab (ds ++ ns) = ds ++ ns := by
  unfold normSegs
  rw [List.foldl_append]
  cases ab with
  | true =>
    rw [hab rfl]
    simp only [List.foldl_nil]
    rw [foldl_normStep_normal true ns [] hns]
    simp [hab rfl]
  | false =>
    rw [foldl_normStep_dots ds [] hds (by intro x hx; simp at hx),
        foldl_normStep_normal false ns (ds.reverse ++ []) hns]
    simp

theorem foldl_normStep_inv (ab : Bool) (P : Str → Prop) (hP : P (str "..")) :
    ∀ (rest acc : List Str),
      (∀ s ∈ rest, P s) →
      (∃ nsR dsR, acc = nsR ++ dsR ∧
        (∀ s ∈ nsR, s ≠ [] ∧ s ≠ str "." ∧ s ≠ str "..") ∧
        (∀ s ∈ dsR, s = str "..") ∧ (ab = true → dsR = []) ∧
        (∀ s ∈ acc, P s)) →
      ∃ nsR dsR, List.foldl (normStep ab) acc rest = nsR ++ dsR ∧
        (∀ s ∈ nsR, s ≠ [] ∧ s ≠ str "." ∧ s ≠ str "..") ∧
        (∀ s ∈ dsR, s = str "..") ∧ (ab = true → dsR = []) ∧
        (∀ s ∈ List.foldl (normStep ab) acc rest, P s) := by
  intro rest
  induction rest with
  | nil => intro acc _ hinv; simpa using hinv
  | cons s rest ih =>
    intro acc hrest hinv
    obtain ⟨nsR, dsR, hacc, hns, hds, hab, hPacc⟩ := hinv
    have hrest' : ∀ x ∈ rest, P x :=
      fun x hx => hrest x (List.mem_cons.mpr (Or.inr hx))
    rw [List.foldl_cons]
    by_cases hskip : s = [] ∨ s = str "."
    · rw [normStep_skip ab acc hskip]
      exact ih acc hrest' ⟨nsR, dsR, hacc, hns, hds, hab, hPacc⟩
    · push_neg at hskip
      obtain ⟨hne, hndot⟩ := hskip
      by_cases hdd : s = str ".."
      · -- the `..` case: pop a normal segment, or extend the dots run
        subst hdd
        have hstep : ∃ acc', normStep ab acc (str "..") = acc' ∧
            ∃ nsR' dsR', acc' = nsR' ++ dsR' ∧
              (∀ x ∈ nsR', x ≠ [] ∧ x ≠ str "." ∧ x ≠ str "..") ∧
              (∀ x ∈ dsR', x = str "..") ∧ (ab = true → dsR' = []) ∧
              (∀ x ∈ acc', P x) := by
          cases hnsR : nsR with
          | cons n nsR' =>
            -- top of stack is a normal segment: it is popped
            have hacc' : acc = n :: (nsR' ++ dsR) := by rw [hacc, hnsR]; rfl
            have hn := hns n (by rw [hnsR]; exact List.mem_cons_self n nsR')
            refine ⟨nsR' ++ dsR, ?_, nsR', dsR, rfl,
              (fun x hx => hns x (by rw [hnsR]; exact List.mem_cons.mpr (Or.inr hx))),
              hds, hab,
              (fun x hx => hPacc x (by rw [hacc']; exact List.mem_cons.mpr (Or.inr hx)))⟩
            have hn' : n ≠ ['.', '.'] := by simpa [str] using hn.2.2
            rw [hacc']
            simp [normStep, str, hn']
          | nil =>
            -- stack is all dots (or empty)
            cases hdsR : dsR with
            | nil =>
              have hacc' : acc = [] := by rw [hacc, hnsR, hdsR]; rfl
              cases hab2 : ab with
              | true =>
                refine ⟨[], ?_, [], [], rfl, by simp, by simp, fun _ => rfl, by simp⟩
                rw [hacc']
                simp [normStep, str]
              | false =>
                refine ⟨[str ".."], ?_, [], [str ".."], rfl, by simp,
                  by simp, by simp, by simpa using hP⟩
                rw [hacc']
                simp [normStep, str]
            | cons t dsR' =>
              have hacc' : acc = str ".." :: dsR' := by
                rw [hacc, hnsR, hdsR]
                rw [hds t (by rw [hdsR]; exact List.mem_cons_self t dsR')]
                rfl
              have hab2 : ab = false := by
                cases hab3 : ab with
                | true => exact absurd (hab hab3) (by rw [hdsR]; simp)
                | false => rfl
              refine ⟨str ".." :: acc, ?_, [], str ".." :: str ".." :: dsR', ?_, by simp, ?_, ?_, ?_⟩
              · rw [hacc']
                simp [normStep, str]
              · rw [hacc']
                rfl
              · intro x hx
                rcases List.mem_cons.mp hx with h | h
                · exact h
                · rcases List.mem_cons.mp h with h' | h'
                  · exact h'
                  · exact hds x (by rw [hdsR]; exact List.mem_cons.mpr (Or.inr h'))
              · intro hab3; exact absurd hab3 (by rw [hab2]; simp)
              · intro x hx
                rcases List.mem_cons.mp hx with h | h
                · rw [h]; exact hP
                · exact hPacc x h
        obtain ⟨acc', hstep, nsR', dsR', hdec, hns', hds', hab', hP'⟩ := hstep
        rw [hstep]
        exact ih acc' hrest' ⟨nsR', dsR', hdec, hns', hds', hab', hP'⟩
      · -- a normal segment is pushed
        rw [normStep_push ab acc hne hndot hdd]
        refine ih (s :: acc) hrest' ⟨s :: nsR, dsR, by rw [hacc]; rfl,
          ?_, hds, hab, ?_⟩
        · intro x hx
          rcases List.mem_cons.mp hx with h | h
          · rw [h]; exact ⟨hne, hndot, hdd⟩
          · exact hns x h
        · intro x hx
          rcases List.mem_cons.mp hx with h | h
          · rw [h]; exact hrest s (List.mem_cons_self s rest)
          · exact hPacc x h

theorem normSegs_wf (ab : Bool) (P : Str → Prop) (hP : P (str ".."))
    (l : List Str) (hl : ∀ s ∈ l, P s) :
    ∃ ds ns, normSegs ab l = ds ++ ns ∧
      (∀ s ∈ ds, s = str "..") ∧ (ab = true → ds = []) ∧
      (∀ s ∈ ns, s ≠ [] ∧ s ≠ str "." ∧ s ≠ str "..") ∧
      (∀ s ∈ normSegs ab l, P s) := by
  obtain ⟨nsR, dsR, hdec, hns, hds, hab, hPout⟩ :=
    foldl_normStep_inv ab P hP l [] hl
      ⟨[], [], rfl, by simp, by simp, fun _ => rfl, by simp⟩
  refine ⟨dsR.reverse, nsR.reverse, ?_, ?_, ?_, ?_, ?_⟩
  · unfold normSegs
    rw [hdec]
    simp
  · intro s hs; exact hds s (by simpa using hs)
  · intro h; rw [hab h]; rfl
  · intro s hs; exact hns s (by simpa using hs)
  · intro s hs
    unfold normSegs at hs
    exact hPout s (by simpa using hs)

theorem normSegs_cons_empty (ab : Bool) (l : List Str) :
    normSegs ab ([] :: l) = normSegs ab l := by
  unfold normSegs
  rw [List.foldl_cons, normStep_skip ab [] (Or.inl rfl)]

theorem intercalate_cons_exists (sep s : Str) (rest : List Str) :
    ∃ t, List.intercalate sep (s :: rest) = s ++ t := by
  cases rest with
  | nil => exact ⟨[], by simp [List.intercalate]⟩
  | cons r rs =>
    refine ⟨sep ++ (List.intersperse sep (r :: rs)).flatten, ?_⟩
    simp [List.intercalate, List.intersperse_cons_cons]

/-- A path rebuilt from a normalized, separator-free segment
decomposition is a fixed point of `pathNormalize`. -/
theorem renderPath_fixed (ab : Bool) (ds ns : List Str)
    (hds : ∀ s ∈ ds, s = str "..") (hab : ab = true → ds = [])
    (hns : ∀ s ∈ ns, s ≠ [] ∧ s ≠ str "." ∧ s ≠ str "..")
    (hnosep : ∀ s ∈ ds ++ ns, '/' ∉ s) :
    pathNormalize (renderPath ab (ds ++ ns)) = renderPath ab (ds ++ ns) := by
  by_cases hmnil : ds ++ ns = []
  · rw [hmnil]
    cases ab <;> decide
  · obtain ⟨s₀, m', hm⟩ : ∃ s₀ m', ds ++ ns = s₀ :: m' := by
      cases hmm : ds ++ ns with
      | nil => exact absurd hmm hmnil
      | cons a b => exact ⟨a, b, rfl⟩
    have hs₀mem : s₀ ∈ ds ++ ns := by rw [hm]; exact List.mem_cons_self s₀ m'
    have hs₀ne : s₀ ≠ [] := by
      rcases List.mem_append.mp hs₀mem with h | h
      · rw [hds s₀ h]; simp [str]
      · exact (hns s₀ h).1
    obtain ⟨t, ht⟩ := intercalate_cons_exists (str "/") s₀ m'
    have hbody2 : List.intercalate (str "/") (ds ++ ns) = s₀ ++ t := by
      rw [hm, ht]
    have hbodyne : List.intercalate (str "/") (ds ++ ns) ≠ [] := by
      rw [hbody2]
      cases hs : s₀ with
      | nil => exact absurd hs hs₀ne
      | cons c cs => simp
    have hbodyE : (List.intercalate (str "/") (ds ++ ns)).isEmpty = false := by
      cases hb : List.intercalate (str "/") (ds ++ ns) with
      | nil => exact absurd hb hbodyne
      | cons c cs => rfl
    have hsplit : splitOnChar '/' (List.intercalate (str "/") (ds ++ ns)) = ds ++ ns := by
      have hstr : str "/" = ['/'] := rfl
      rw [splitOnChar, hstr]
      exact List.splitOn_intercalate (ds ++ ns) '/' (fun l hl => hnosep l hl) hmnil
    have hnorm : normSegs ab (ds ++ ns) = ds ++ ns := normSegs_self ab ds ns hds hab hns
    have hhead : pathIsAbsolute (List.intercalate (str "/") (ds ++ ns)) = false := by
      rw [hbody2]
      cases hs : s₀ with
      | nil => exact absurd hs hs₀ne
      | cons c cs =>
        have hc : c ≠ '/' := by
          have hninc : '/' ∉ s₀ := hnosep s₀ hs₀mem
          rw [hs] at hninc
          intro h
          exact hninc (by rw [h]; exact List.mem_cons_self '/' cs)
        simp [pathIsAbsolute, hc]
    cases ab with
    | true =>
      have hrp : renderPath true (ds ++ ns) =
          '/' :: List.intercalate (str "/") (ds ++ ns) := by
        simp [renderPath, hbodyE]
      rw [hrp, pathNormalize]
      have h1 : ('/' :: List.intercalate (str "/") (ds ++ ns)).isEmpty = false := rfl
      have h2 : pathIsAbsolute ('/' :: List.intercalate (str "/") (ds ++ ns)) = true := by
        simp [pathIsAbsolute]
      rw [h1, h2]
      simp only [Bool.false_eq_true, if_false]
      rw [splitOnChar_cons_sep, hsplit, normSegs_cons_empty, hnorm, hrp]
    | false =>
      have hrp : renderPath false (ds ++ ns) =
          List.intercalate (str "/") (ds ++ ns) := by
        simp [renderPath, hbodyE]
      rw [hrp, pathNormalize, hbodyE]
      simp only [Bool.false_eq_true, if_false]
      rw [hhead, hsplit, hnorm, hrp]

/-- `pathNormalize` is idempotent. -/
theorem pathNormalize_idem (p : Str) :
    pathNormalize (pathNormalize p) = pathNormalize p := by
  by_cases hp : p.isEmpty = true
  · have hnil : p = [] := by
      cases p with
      | nil => rfl
      | cons c cs => simp at hp
    rw [hnil]
    decide
  · have hpf : p.isEmpty = false := Bool.not_eq_true _ ▸ Bool.eq_false_iff.mpr hp
    obtain ⟨ds, ns, hdec, hds, hab, hns, hnosep⟩ :=
      normSegs_wf (pathIsAbsolute p) (fun s => '/' ∉ s) (by simp [str])
        (splitOnChar '/' p) (splitOnChar_no_sep '/' p)
    have h1 : pathNormalize p = renderPath (pathIsAbsolute p) (ds ++ ns) := by
      rw [pathNormalize, hpf]
      simp only [Bool.false_eq_true, if_false]
      rw [hdec]
    rw [h1]
    exact renderPath_fixed (pathIsAbsolute p) ds ns hds hab hns
      (fun s hs => hnosep s (by rw [hdec]; exact hs))

theorem pathIsAbsolute_shape {p : Str} (hp : pathIsAbsolute p = true) :
    ∃ rest, p = '/' :: rest := by
  cases p with
  | nil => simp [pathIsAbsolute] at hp
  | cons c cs =>
    have hc : c = '/' := by simpa [pathIsAbsolute] using hp
    exact ⟨cs, by rw [hc]⟩

theorem renderPath_abs_shape (segs : List Str) :
    pathIsAbsolute (renderPath true segs) = true := by
  unfold renderPath
  by_cases hb : (List.intercalate (str "/") segs).isEmpty = true
  · simp only [hb, if_true]
    decide
  · have hb' : (List.intercalate (str "/") segs).isEmpty = false :=
      Bool.not_eq_true _ ▸ Bool.eq_false_iff.mpr hb
    simp only [hb', Bool.false_eq_true, if_false, if_true]
    simp [pathIsAbsolute]

theorem pathNormalize_abs_of_abs (p : Str) (hp : pathIsAbsolute p = true) :
    pathIsAbsolute (pathNormalize p) = true := by
  have hpf : p.isEmpty = false := by
    cases p with
    | nil => simp [pathIsAbsolute] at hp
    | cons c cs => rfl
  rw [pathNormalize, hpf]
  simp only [Bool.false_eq_true, if_false]
  rw [hp]
  exact renderPath_abs_shape _

theorem resolvePath_isAbsolute (base p : Str) (hb : pathIsAbsolute base = true) :
    pathIsAbsolute (resolvePath base p) = true := by
  unfold resolvePath
  by_cases hp : pathIsAbsolute p = true
  · rw [hp]
    simp only [if_true]
    exact pathNormalize_abs_of_abs p hp
  · have hp' : pathIsAbsolute p = false :=
      Bool.not_eq_true _ ▸ Bool.eq_false_iff.mpr hp
    rw [hp']
    simp only [Bool.false_eq_true, if_false]
    have hbne : base.isEmpty = false := by
      cases base with
      | nil => simp [pathIsAbsolute] at hb
      | cons c cs => rfl
    rw [hbne]
    simp only [Bool.false_eq_true, if_false]
    apply pathNormalize_abs_of_abs
    cases base with
    | nil => simp [pathIsAbsolute] at hb
    | cons c cs => simpa [pathIsAbsolute] using hb

theorem resolvePath_normalized (base p : Str) :
    pathNormalize (resolvePath base p) = resolvePath base p := by
  unfold resolvePath
  by_cases h1 : pathIsAbsolute p = true
  · simp only [h1, if_true]
    exact pathNormalize_idem p
  · have h1' : pathIsAbsolute p = false :=
      Bool.not_eq_true _ ▸ Bool.eq_false_iff.mpr h1
    simp only [h1', Bool.false_eq_true, if_false]
    by_cases h2 : base.isEmpty = true
    · simp only [h2, if_true]
      exact pathNormalize_idem p
    · have h2' : base.isEmpty = false :=
        Bool.not_eq_true _ ▸ Bool.eq_false_iff.mpr h2
      simp only [h2', Bool.false_eq_true, if_false]
      exact pathNormalize_idem (base ++ '/' :: p)

theorem dropEndWhile_isPrefix (f : Char → Bool) (l : Str) :
    dropEndWhile f l <+: l := by
  unfold dropEndWhile
  have h := List.dropWhile_suffix (l := l.reverse) f
  have h2 : (List.dropWhile f l.reverse).reverse <+: l.reverse.reverse :=
    List.reverse_prefix.mpr h
  simpa using h2

theorem pathIsAbsolute_of_prefix {s p : Str} (hpre : s <+: p) (hne : s ≠ [])
    (hp : pathIsAbsolute p = true) : pathIsAbsolute s = true := by
  obtain ⟨t, ht⟩ := hpre
  cases s with
  | nil => exact absurd rfl hne
  | cons c cs =>
    rw [← ht] at hp
    simpa [pathIsAbsolute] using hp

theorem dirnamePath_isAbsolute (p : Str) (hp : pathIsAbsolute p = true) :
    pathIsAbsolute (dirnamePath p) = true := by
  have hpre : dropEndWhile (fun c => c == '/')
      (dropEndWhile (fun c => !(c == '/')) (dropEndWhile (fun c => c == '/') p)) <+: p :=
    (dropEndWhile_isPrefix _ _).trans
      ((dropEndWhile_isPrefix _ _).trans (dropEndWhile_isPrefix _ _))
  unfold dirnamePath
  by_cases hs : (dropEndWhile (fun c => c == '/')
      (dropEndWhile (fun c => !(c == '/')) (dropEndWhile (fun c => c == '/') p))).isEmpty = true
  · obtain ⟨rest, hrest⟩ := pathIsAbsolute_shape hp
    subst hrest
    simp [hs, str, pathIsAbsolute]
  · have hs' : (dropEndWhile (fun c => c == '/')
        (dropEndWhile (fun c => !(c == '/')) (dropEndWhile (fun c => c == '/') p))).isEmpty = false :=
      Bool.not_eq_true _ ▸ Bool.eq_false_iff.mpr hs
    simp only [hs', Bool.false_eq_true, if_false]
    refine pathIsAbsolute_of_prefix hpre ?_ hp
    intro hnil
    rw [hnil] at hs'
    simp at hs'

/-! ## C4: what a Config Snapshot actually stores -/

/-- C4 counterexample: the snapshot loaded from a config whose `paths`
table maps `@/*` to the relative value `src/*`, with webpack alias target
`/proj/../lib`, violates the claimed invariant: the path-mapping
replacement value is stored verbatim and is not absolute, and the
absolute alias target is stored without normalization. -/
theorem snapshot_raw_values_cex :
    snapshotAllAbsNormal snapshotRawCex = false ∧
    snapshotRawCex.tsconfigPaths = some [(str "@/*", [str "src/*"])] ∧
    pathIsAbsolute (str "src/*") = false ∧
    snapshotRawCex.webpackAliases = some [(str "@", str "/proj/../lib")] ∧
    pathNormalize (str "/proj/../lib") ≠ str "/proj/../lib" := by
  refine ⟨by decide, by decide, by decide, by decide, by decide⟩

/-- C4 (amended): in every snapshot built by the loader from absolute
workspace-root and config paths, the base-URL is an absolute, normalized
path; every bundler alias target is absolute (relative config values are
resolved against the workspace root, absolute ones are stored as
written); and the path-mapping table is stored verbatim from the config
file, so its replacement values may be relative. -/
theorem mkCacheEntry_amended :
    ∀ (root tsPath : Str) (raw : Option TsConfigRaw)
      (wp : Option (List (Str × Str))),
      pathIsAbsolute root = true →
      pathIsAbsolute tsPath = true →
      ((∀ b, (mkCacheEntry root (some tsPath) raw wp).baseUrl = some b →
          pathIsAbsolute b = true ∧ pathNormalize b = b) ∧
       (∀ a, (mkCacheEntry root (some tsPath) raw wp).webpackAliases = some a →
          ∀ kv ∈ a, pathIsAbsolute kv.2 = true) ∧
       (mkCacheEntry root (some tsPath) raw wp).tsconfigPaths =
         raw.bind (fun cfg => cfg.paths)) := by
  intro root tsPath raw wp hroot htsPath
  refine ⟨?_, ?_, ?_⟩
  · intro b hb
    cases raw with
    | none => simp [mkCacheEntry, loadTsconfig] at hb
    | some cfg =>
      cases hcb : cfg.baseUrl with
      | none => simp [mkCacheEntry, loadTsconfig, hcb] at hb
      | some u =>
        have hb' : b = resolvePath (dirnamePath tsPath) u := by
          simp [mkCacheEntry, loadTsconfig, hcb] at hb
          exact hb.symm
        rw [hb']
        exact ⟨resolvePath_isAbsolute (dirnamePath tsPath) u
            (dirnamePath_isAbsolute tsPath htsPath),
          resolvePath_normalized (dirnamePath tsPath) u⟩
  · intro a ha kv hkv
    cases wp with
    | none => simp [mkCacheEntry, loadWebpackAliases] at ha
    | some l =>
      have ha' : a = l.map (fun kv =>
          (kv.1, if pathIsAbsolute kv.2 then kv.2 else resolvePath root kv.2)) := by
        simp [mkCacheEntry, loadWebpackAliases] at ha
        exact ha.symm
      rw [ha'] at hkv
      obtain ⟨kv₀, hkv₀, hmap⟩ := List.mem_map.mp hkv
      rw [← hmap]
      by_cases habs : pathIsAbsolute kv₀.2 = true
      · simp only [habs, if_true]
      · have habs' : pathIsAbsolute kv₀.2 = false :=
          Bool.not_eq_true _ ▸ Bool.eq_false_iff.mpr habs
        simp only [habs', Bool.false_eq_true, if_false]
        exact resolvePath_isAbsolute root kv₀.2 hroot
  · cases raw with
    | none => rfl
    | some cfg => rfl

/-- C4 witness: the amended statement applied to the concrete loaded
snapshot: the base-URL `src` of `/proj/tsconfig.json` is stored as the
absolute, normalized `/proj/src`. -/
theorem mkCacheEntry_amended_witness :
    pathIsAbsolute (str "/proj/src") = true ∧
      pathNormalize (str "/proj/src") = str "/proj/src" :=
  (mkCacheEntry_amended (str "/proj") (str "/proj/tsconfig.json")
    (some { baseUrl := some (str "src"), paths := some [(str "@/*", [str "src/*"])] })
    (some [(str "@", str "/proj/../lib")]) (by decide) (by decide)).1
    (str "/proj/src") (by decide)

/-! ## C6: wildcard path-mapping completeness -/

theorem mem_insertByLen_self {α : Type} (x : Str × α) :
    ∀ l : List (Str × α), x ∈ insertByLen x l := by
  intro l
  induction l with
  | nil => simp [insertByLen]
  | cons z zs ih =>
    unfold insertByLen
    by_cases hc : z.1.length ≤ x.1.length
    · rw [if_pos hc]; exact List.mem_cons_self x (z :: zs)
    · rw [if_neg hc]; exact List.mem_cons.mpr (Or.inr ih)

theorem mem_insertByLen_of_mem {α : Type} (x y : Str × α) :
    ∀ l : List (Str × α), y ∈ l → y ∈ insertByLen x l := by
  intro l
  induction l with
  | nil => intro h; simp at h
  | cons z zs ih =>
    intro h
    unfold insertByLen
    by_cases hc : z.1.length ≤ x.1.length
    · rw [if_pos hc]; exact List.mem_cons.mpr (Or.inr h)
    · rw [if_neg hc]
      rcases List.mem_cons.mp h with h | h
      · exact List.mem_cons.mpr (Or.inl h)
      · exact List.mem_cons.mpr (Or.inr (ih h))

theorem mem_sortByKeyLenDesc {α : Type} (y : Str × α) :
    ∀ l : List (Str × α), y ∈ l → y ∈ sortByKeyLenDesc l := by
  intro l
  induction l with
  | nil => intro h; simp at h
  | cons x xs ih =>
    intro h
    unfold sortByKeyLenDesc at ih ⊢
    rw [List.foldr_cons]
    rcases List.mem_cons.mp h with h | h
    · rw [h]; exact mem_insertByLen_self x _
    · exact mem_insertByLen_of_mem x y _ (ih h)

theorem mem_dedupKeepFirst (x : Str) :
    ∀ (l acc : List Str), (x ∈ acc ∨ x ∈ l) →
      x ∈ l.foldl (fun acc y => if y ∈ acc then acc else acc ++ [y]) acc := by
  intro l
  induction l with
  | nil =>
    intro acc h
    rcases h with h | h
    · exact h
    · simp at h
  | cons y ys ih =>
    intro acc h
    rw [List.foldl_cons]
    by_cases hy : y ∈ acc
    · rw [if_pos hy]
      apply ih
      rcases h with h | h
      · exact Or.inl h
      · rcases List.mem_cons.mp h with h | h
        · exact Or.inl (h ▸ hy)
        · exact Or.inr h
    · rw [if_neg hy]
      apply ih
      rcases h with h | h
      · exact Or.inl (List.mem_append.mpr (Or.inl h))
      · rcases List.mem_cons.mp h with h | h
        · exact Or.inl (List.mem_append.mpr (Or.inr (by simp [h])))
        · exact Or.inr h

theorem mem_dedupKeepFirst_of_mem (x : Str) (l : List Str) (h : x ∈ l) :
    x ∈ dedupKeepFirst l :=
  mem_dedupKeepFirst x l [] (Or.inr h)

theorem greedyCapture_single_empty (u : Str) : greedyCapture [[]] u = some u := by
  unfold greedyCapture
  rw [List.range_succ, List.reverse_append]
  simp only [List.reverse_cons, List.reverse_nil, List.nil_append, List.singleton_append,
    List.find?]
  rw [show restMatch [[]] (u.drop u.length) = true by rw [List.drop_length]; rfl]
  simp [List.take_length]

theorem wildcardCapture_key_end (k suffix : Str) (hk : '*' ∉ k) :
    wildcardCapture (k ++ ['*']) (k ++ suffix) = some suffix := by
  have hsplit : splitOnChar '*' (k ++ ['*']) = [k, []] := by
    unfold splitOnChar
    have hfn : ∀ x ∈ k, ¬((fun c => c == '*') x = true) := by
      intro x hx hbe
      have hx' : x = '*' := eq_of_beq hbe
      rw [hx'] at hx
      exact hk hx
    have h1 := List.splitOnP_first (p := fun c => c == '*') k hfn '*' (by simp) []
    simp only [List.splitOn]
    rw [h1]
    rfl
  unfold wildcardCapture
  rw [hsplit]
  have hpre : k.isPrefixOf (k ++ suffix) = true :=
    List.isPrefixOf_iff_prefix.mpr (List.prefix_append k suffix)
  simp [hpre, List.drop_left, greedyCapture_single_empty]

theorem getSubstitution_no_dollar (matched pre post : Str) :
    ∀ w : Str, '$' ∉ w → getSubstitution matched pre post w = w := by
  intro w
  induction w with
  | nil => intro _; rfl
  | cons c rest ih =>
    intro h
    cases rest with
    | nil => rfl
    | cons b t =>
      have hc : c ≠ '$' := fun hh => h (by rw [hh]; exact List.mem_cons_self _ _)
      have hbt : '$' ∉ b :: t := fun hh => h (List.mem_cons.mpr (Or.inr hh))
      simp only [getSubstitution, if_neg hc]
      rw [ih hbt]

theorem replaceFirstStarAux_append_star (w : Str) :
    ∀ (v cur : Str), '*' ∉ v →
      replaceFirstStarAux w cur (v ++ ['*']) =
        cur.reverse ++ v ++ getSubstitution ['*'] (cur.reverse ++ v) [] w := by
  intro v
  induction v with
  | nil =>
    intro cur _
    simp [replaceFirstStarAux]
  | cons c cs ih =>
    intro cur h
    have hc : c ≠ '*' := fun hh => h (by rw [hh]; exact List.mem_cons_self _ _)
    simp only [List.cons_append, replaceFirstStarAux, if_neg hc, List.append_eq]
    rw [ih (c :: cur) (fun hh => h (List.mem_cons.mpr (Or.inr hh)))]
    simp

/-- `val.replace('*', w)` on a value of the shape `v*` (star-free `v`):
the star is found after `v`, and `w` is spliced in with the
`$`-substitution computed against that match. -/
theorem replaceFirstStar_end (w v : Str) (hv : '*' ∉ v) :
    replaceFirstStar w (v ++ ['*']) = v ++ getSubstitution ['*'] v [] w := by
  unfold replaceFirstStar
  rw [replaceFirstStarAux_append_star w v [] hv]
  simp

/-- C6 counterexample: with the mapping `@/*` → `src/*` under base-URL
`/proj`, the specifier `@/a$&b` (key `@/`, suffix `a$&b`) does NOT yield
the candidate claimed by plain substitution, `/proj/src/a$&b`:
JavaScript's `replace` interprets `$&` in the captured suffix as the
matched `*`, so the only candidate is `/proj/src/a*b`. -/
theorem tsconfig_wildcard_dollar_cex :
    resolveAgainstBase wildcardSnapshot.baseUrl (str "/proj")
        (str "src/" ++ str "a$&b") ∉
      resolveAliasToFiles wildcardSnapshot (str "/proj") (str "@/" ++ str "a$&b") ∧
    resolveAliasToFiles wildcardSnapshot (str "/proj") (str "@/" ++ str "a$&b") =
      [str "/proj/src/a*b"] := by
  constructor
  · decide
  · decide

theorem wildcard_entry_candidate_mem :
    ∀ (c : CacheEntry) (root k suffix v : Str) (vals : List Str)
      (m : List (Str × List Str)),
      c.tsconfigPaths = some m →
      (k ++ ['*'], vals) ∈ m →
      (v ++ ['*']) ∈ vals →
      '*' ∉ k →
      '*' ∉ v →
      resolveAgainstBase c.baseUrl root (v ++ getSubstitution ['*'] v [] suffix) ∈
        resolveAliasToFiles c root (k ++ suffix) := by
  intro c root k suffix v vals m hm hkey hval hk hv
  rw [resolveAliasToFiles_eq_specForm]
  unfold aliasCandidatesSpec
  rw [hm]
  apply mem_dedupKeepFirst_of_mem
  have hidem : pathNormalize
      (resolveAgainstBase c.baseUrl root (v ++ getSubstitution ['*'] v [] suffix)) =
      resolveAgainstBase c.baseUrl root (v ++ getSubstitution ['*'] v [] suffix) := by
    unfold resolveAgainstBase
    cases c.baseUrl with
    | none => exact resolvePath_normalized root _
    | some b => exact resolvePath_normalized b _
  rw [← hidem]
  apply List.mem_map_of_mem
  apply List.mem_append.mpr
  right
  apply List.mem_flatMap.mpr
  refine ⟨(k ++ ['*'], vals), mem_sortByKeyLenDesc _ m hkey, ?_⟩
  unfold mappingEntryCands
  have hcont : (k ++ ['*']).contains '*' = true := by
    simp [List.contains]
  simp only [hcont, if_true]
  rw [wildcardCapture_key_end k suffix hk]
  apply List.mem_map.mpr
  exact ⟨v ++ ['*'], hval, by rw [replaceFirstStar_end suffix v hv]⟩

/-- C6 (amended): for a path-mapping entry with key `k*` (one trailing
wildcard) and a replacement value `v*`, and any specifier `k ++ suffix`,
the matcher's candidate set contains the replacement with the suffix
substituted for the `*` through JavaScript's `replace` — the suffix is
spliced literally except for the `$`-substitution patterns it may
contain — resolved against the base-URL when one exists and against the
project root otherwise; for suffixes containing no `$` this is exactly
`v ++ suffix`, as originally claimed.  Matching is literal in every key
character other than the `*`, so regex metacharacters in `k` have no
special meaning. -/
theorem tsconfig_wildcard_candidate_included_amended :
    (∀ (c : CacheEntry) (root k suffix v : Str) (vals : List Str)
        (m : List (Str × List Str)),
        c.tsconfigPaths = some m →
        (k ++ ['*'], vals) ∈ m →
        (v ++ ['*']) ∈ vals →
        '*' ∉ k →
        '*' ∉ v →
        resolveAgainstBase c.baseUrl root (v ++ getSubstitution ['*'] v [] suffix) ∈
          resolveAliasToFiles c root (k ++ suffix)) ∧
    (∀ (c : CacheEntry) (root k suffix v : Str) (vals : List Str)
        (m : List (Str × List Str)),
        c.tsconfigPaths = some m →
        (k ++ ['*'], vals) ∈ m →
        (v ++ ['*']) ∈ vals →
        '*' ∉ k →
        '*' ∉ v →
        '$' ∉ suffix →
        resolveAgainstBase c.baseUrl root (v ++ suffix) ∈
          resolveAliasToFiles c root (k ++ suffix)) := by
  constructor
  · exact wildcard_entry_candidate_mem
  · intro c root k suffix v vals m hm hkey hval hk hv hd
    have h := wildcard_entry_candidate_mem c root k suffix v vals m hm hkey hval hk hv
    rwa [getSubstitution_no_dollar ['*'] v [] suffix hd] at h

/-- C6 witness: with the mapping `@/*` → `src/*` under base-URL `/proj`,
the `$`-free specifier `@/assets/logo.svg` yields the candidate
`/proj/src/assets/logo.svg`. -/
theorem tsconfig_wildcard_candidate_included_amended_witness :
    str "/proj/src/assets/logo.svg" ∈
      resolveAliasToFiles wildcardSnapshot (str "/proj") (str "@/assets/logo.svg") := by
  have h := tsconfig_wildcard_candidate_included_amended.2 wildcardSnapshot
    (str "/proj") (str "@/") (str "assets/logo.svg") (str "src/") [str "src/*"]
    [(str "@/*", [str "src/*"])] (by decide) (by decide) (by decide) (by decide)
    (by decide) (by decide)
  exact h
